import Mathlib

/-!
Verification development for the tagged-keyv-wrapper core: a shallow embedding of
`TaggedKeyv` (the orchestrating cache wrapper) and `KeyvTagManager` (the default
tag-index implementation), both stored in a single underlying Keyv key-value store.

The store is modelled as an association list from string keys to values; a value is
either a caller payload (abstract type `V`) or an index record (a JS array of strings).
Asynchronous store operations are modelled as pure state-passing functions; operations
that can throw return `Except String` results.  The per-key lock wrapper of
`TaggedKeyv` only sequences the asynchronous steps and is the identity on this
sequential model.
-/

namespace TaggedKeyvSpec

/-- A value held by the underlying Keyv store: either a caller payload or an
index record (an array of strings, as written by the tag manager). -/
inductive Val (V : Type) where
  | user : V → Val V
  | tags : List String → Val V
deriving DecidableEq

/-- The underlying Keyv store, modelled by its key-to-value mapping as an
association list.  Entry order is immaterial to every modelled observation. -/
abbrev Store (V : Type) := List (String × Val V)

variable {V : Type}

/-- `cache.get(k)`: the value stored under `k`, if any. -/
def storeGet (s : Store V) (k : String) : Option (Val V) :=
  (s.find? (fun p => p.1 == k)).map (fun p => p.2)

/-- `cache.set(k, v)`: overwrite the binding of `k`. -/
def storeSet (s : Store V) (k : String) (v : Val V) : Store V :=
  (k, v) :: s.filter (fun p => p.1 != k)

/-- `cache.delete(k)`: drop the binding of `k`. -/
def storeDelete (s : Store V) (k : String) : Store V :=
  s.filter (fun p => p.1 != k)

/-- TAG_PREFIX: namespace marker for tag-to-keys records. -/
def tagMark : String := "__tag__:"

/-- KEY_TAGS_PREFIX: namespace marker for key-to-tags records. -/
def keyTagsMark : String := "__tags__:"

/-- The `isStringArray` type guard at the index boundary: an index record read
back from the store is used only when it is an array of strings; any other
shape is treated as absent. -/
def isStringArray (v : Option (Val V)) : Option (List String) :=
  match v with
  | some (.tags l) => some l
  | _ => none

namespace KeyvTagManager

/-- `getTagKey(tag)`: store key of the TagKeysRecord of `tag`. -/
def getTagKey (tag : String) : String := tagMark ++ tag

/-- `getKeyTagMapKey(key)`: store key of the KeyTagsRecord of `key`. -/
def getKeyTagMapKey (key : String) : String := keyTagsMark ++ key

/-- `KeyvTagManager.addKeyToTag`: append `key` to the tag record unless already present. -/
def addKeyToTag (s : Store V) (key tag : String) : Store V :=
  let tagKey := getTagKey tag
  let existingArray := (isStringArray (storeGet s tagKey)).getD []
  if key ∈ existingArray then s
  else storeSet s tagKey (.tags (existingArray ++ [key]))

/-- `KeyvTagManager.removeKeyFromTag`: filter `key` out of the tag record;
persist the result when non-empty, delete the record when empty. -/
def removeKeyFromTag (s : Store V) (key tag : String) : Store V :=
  let tagKey := getTagKey tag
  match isStringArray (storeGet s tagKey) with
  | some existing =>
      let updated := existing.filter (fun k => k ≠ key)
      if updated.length > 0 then storeSet s tagKey (.tags updated)
      else storeDelete s tagKey
  | none => s

/-- `KeyvTagManager.getKeysForTag`: the tag record verbatim, or `[]`. -/
def getKeysForTag (s : Store V) (tag : String) : List String :=
  (isStringArray (storeGet s (getTagKey tag))).getD []

/-- `KeyvTagManager.getTagsForKey`: the key-to-tags record verbatim, or `[]`. -/
def getTagsForKey (s : Store V) (key : String) : List String :=
  (isStringArray (storeGet s (getKeyTagMapKey key))).getD []

/-- `KeyvTagManager.deleteKeyFromAllTags`: remove `key` from every tag recorded for
it, then drop its KeyTagsRecord; no-op when no well-formed record exists. -/
def deleteKeyFromAllTags (s : Store V) (key : String) : Store V :=
  let tagMapKey := getKeyTagMapKey key
  match isStringArray (storeGet s tagMapKey) with
  | some tags =>
      let s1 := tags.foldl (fun acc tag => removeKeyFromTag acc key tag) s
      storeDelete s1 tagMapKey
  | none => s

/-- `KeyvTagManager.setTagsForKey`: full replace — remove the key from all of its
current tags, then persist the new KeyTagsRecord and add the key under each new
tag; with an empty list, only delete the KeyTagsRecord. -/
def setTagsForKey (s : Store V) (key : String) (tags : List String) : Store V :=
  let tagMapKey := getKeyTagMapKey key
  let s1 := deleteKeyFromAllTags s key
  if tags.length > 0 then
    let s2 := storeSet s1 tagMapKey (.tags tags)
    tags.foldl (fun acc tag => addKeyToTag acc key tag) s2
  else storeDelete s1 tagMapKey

/-- `KeyvTagManager.deleteTag`: remove the tag from every listed key's
KeyTagsRecord, then delete the TagKeysRecord. -/
def deleteTag (s : Store V) (tag : String) : Store V :=
  let tagKey := getTagKey tag
  let s1 :=
    match isStringArray (storeGet s tagKey) with
    | some keys =>
        keys.foldl
          (fun acc key =>
            let keyTags := getTagsForKey acc key
            let updatedTags := keyTags.filter (fun t => t ≠ tag)
            if updatedTags.length > 0 then
              storeSet acc (getKeyTagMapKey key) (.tags updatedTags)
            else storeDelete acc (getKeyTagMapKey key))
          s
    | none => s
  storeDelete s1 tagKey

/-- The `for key of existing` loop of `KeyvTagManager.compactTag`, carrying the
`seen` set and the accumulated `validKeys`: skip keys already seen, keep the
first occurrence of each key only when it still holds a value in the store. -/
def compactLoop (s : Store V) : List String → List String → List String → List String
  | [], _, valid => valid
  | key :: rest, seen, valid =>
      if key ∈ seen then compactLoop s rest seen valid
      else
        if (storeGet s key).isSome then compactLoop s rest (seen ++ [key]) (valid ++ [key])
        else compactLoop s rest (seen ++ [key]) valid

/-- `KeyvTagManager.compactTag`: deduplicate the tag record and drop dead keys;
write the result back only when the length changed, deleting the record when
the result is empty. -/
def compactTag (s : Store V) (tag : String) : Store V :=
  let tagKey := getTagKey tag
  match isStringArray (storeGet s tagKey) with
  | some existing =>
      let validKeys := compactLoop s existing [] []
      if validKeys.length ≠ existing.length then
        if validKeys.length > 0 then storeSet s tagKey (.tags validKeys)
        else storeDelete s tagKey
      else s
  | none => s

/-- `KeyvTagManager.compact`: global compaction (no tag list) is unimplemented and
throws; otherwise compact each given tag in order. -/
def compact (s : Store V) (tags : Option (List String)) : Except String (Store V) :=
  match tags with
  | none => .error "Global tag compaction not implemented. Please specify tags to compact."
  | some ts => .ok (ts.foldl (fun acc tag => compactTag acc tag) s)

/-- `KeyvTagManager.clear`: delegates to the store's global clear. -/
def clear (_s : Store V) : Store V := []

/-- Modelled from the spec: `KeyvTagManager.getAllTags` is declared in the
`TagManager` interface, delegated to by `TaggedKeyv.getAllTags` and exercised by
the test suite, but its body is not among the source files.  Following the
spec's words, it returns the set of all distinct tag names currently having a
non-empty TagKeysRecord: scan the store's key space, keep only tag-namespace
records holding a non-empty array of strings, strip the namespace marker, and
eliminate duplicates. -/
def getAllTags (s : Store V) : List String :=
  (((s.map (fun p => p.1)).filter (fun k => tagMark.data.isPrefixOf k.data)).filterMap
    (fun k =>
      match isStringArray (storeGet s k) with
      | some l => if l.isEmpty then none else some (String.mk (k.data.drop tagMark.data.length))
      | none => none)).dedup

end KeyvTagManager

namespace TaggedKeyv

/-- The `TagManager` capability as consumed by `TaggedKeyv.set`: the two index
operations the compound write path calls, each of which may throw. -/
structure TagIndex (V : Type) where
  setTagsForKey : Store V → String → List String → Except String (Store V)
  deleteKeyFromAllTags : Store V → String → Except String (Store V)

/-- The default tag manager of a `TaggedKeyv` instance: a `KeyvTagManager`
colocated in the same store, whose pure model never throws. -/
def kvIndex (V : Type) : TagIndex V :=
  ⟨fun s key tags => .ok (KeyvTagManager.setTagsForKey s key tags),
   fun s key => .ok (KeyvTagManager.deleteKeyFromAllTags s key)⟩

/-- A faulty tag manager whose `setTagsForKey` always fails with message `e`
while cleanup still works — the "faulty TagIndex" the spec uses to state the
cleanup property of `set`. -/
def failingSetIndex (V : Type) (e : String) : TagIndex V :=
  ⟨fun _ _ _ => .error e,
   fun s key => .ok (KeyvTagManager.deleteKeyFromAllTags s key)⟩

/-- A tag manager failing on both `setTagsForKey` (message `e`) and the cleanup
call `deleteKeyFromAllTags` (message `e2`). -/
def fullyFailingIndex (V : Type) (e e2 : String) : TagIndex V :=
  ⟨fun _ _ _ => .error e, fun _ _ => .error e2⟩

/-- `TaggedKeyv.cleanupFailedSet`: best-effort cleanup after a failed `set` —
delete the key's payload, then remove it from all tag associations; a cleanup
failure is logged, never thrown. -/
def cleanupFailedSet (m : TagIndex V) (s : Store V) (key : String) : Store V :=
  let s1 := storeDelete s key
  match m.deleteKeyFromAllTags s1 key with
  | .ok s2 => s2
  | .error _ => s1

/-- `TaggedKeyv.set` with the parameters already parsed to the final tag list:
write the payload, then, when tags are present, delegate to the tag manager;
on tag failure run `cleanupFailedSet` and surface a wrapped error.  The result
pairs the thrown-or-ok outcome with the final store state. -/
def set (m : TagIndex V) (s : Store V) (key : String) (value : V)
    (finalTags : List String) : Except String Unit × Store V :=
  let s1 := storeSet s key (.user value)
  if finalTags.length > 0 then
    match m.setTagsForKey s1 key finalTags with
    | .ok s2 => (.ok (), s2)
    | .error e =>
        (.error ("Failed to set tags for key \"" ++ key ++ "\": " ++ e),
         cleanupFailedSet m s1 key)
  else (.ok (), s1)

/-- `TaggedKeyv.set` on an instance built with the default `KeyvTagManager`;
this path never throws, so only the resulting store is kept. -/
def setDefault (s : Store V) (key : String) (value : V) (tags : List String) : Store V :=
  (set (kvIndex V) s key value tags).2

/-- `TaggedKeyv.get`: passthrough read of the underlying store. -/
def get (s : Store V) (key : String) : Option (Val V) := storeGet s key

/-- `Array.prototype.slice(start, stop)` on lists, with JavaScript's handling of
negative and out-of-range indices. -/
def jsSlice {α : Type} (l : List α) (start stop : Int) : List α :=
  let n : Int := l.length
  let a := if start < 0 then max (n + start) 0 else min start n
  let b := if stop < 0 then max (n + stop) 0 else min stop n
  if a < b then (l.drop a.toNat).take (b - a).toNat else []

/-- `TaggedKeyv.getByTag` with the options already destructured (the source
defaults are `page = 1`, `limit = 50`): fetch the tag's key list, clamp the
page to at least 1, slice `[offset, offset + limit)`, read each sliced key and
keep the pairs whose payload is still present; when dead keys were seen,
compact the tag as a side effect.  Returns the page of pairs and the resulting
store. -/
def getByTag (s : Store V) (tag : String) (page limit : Int) :
    List (String × Val V) × Store V :=
  let allKeys := KeyvTagManager.getKeysForTag s tag
  if allKeys.length = 0 then ([], s)
  else
    let currentPage := max 1 page
    let offset := (currentPage - 1) * limit
    let keysToFetch := jsSlice allKeys offset (offset + limit)
    if keysToFetch.length = 0 then ([], s)
    else
      let results := keysToFetch.filterMap (fun k => (storeGet s k).map (fun v => (k, v)))
      let deadKeys := (keysToFetch.filter (fun k => (storeGet s k).isNone)).length
      let s2 :=
        if deadKeys > 0 then
          match KeyvTagManager.compact s (some [tag]) with
          | .ok s3 => s3
          | .error _ => s
        else s
      (results, s2)

/-- `TaggedKeyv.compactTags`: delegate to the tag manager's `compact`, wrapping
any failure. -/
def compactTags (s : Store V) (tags : Option (List String)) : Except String (Store V) :=
  match KeyvTagManager.compact s tags with
  | .ok s2 => .ok s2
  | .error e => .error ("Failed to compact tags: " ++ e)

/-- `TaggedKeyv.getAllTags`: thin delegation to the tag manager. -/
def getAllTags (s : Store V) : List String := KeyvTagManager.getAllTags s

/-- `TaggedKeyv.getTagsForKey`: thin delegation to the tag manager. -/
def getTagsForKey (s : Store V) (key : String) : List String :=
  KeyvTagManager.getTagsForKey s key

end TaggedKeyv

/-- Elements of `l` whose zero-based position `i` (counted from the starting
index given as the second argument) lies in the half-open integer interval
`[a, b)`. -/
def sliceIdx {α : Type} : List α → Int → Int → Int → List α
  | [], _, _, _ => []
  | x :: xs, i, a, b => (if a ≤ i ∧ i < b then [x] else []) ++ sliceIdx xs (i + 1) a b

/-- The `getByTag` pagination contract as the specification words it (claim C3):
the (key, value) pairs for the slice `[offset, offset + limit)` of the tag's
key list, where the page is clamped to a minimum of 1 and
`offset = (page − 1) * limit`; the interval is taken literally over the
integers via an explicit position filter. -/
def getByTagSpecified (s : Store V) (tag : String) (page limit : Int) :
    List (String × Val V) :=
  let allKeys := KeyvTagManager.getKeysForTag s tag
  let offset := (max 1 page - 1) * limit
  (sliceIdx allKeys 0 offset (offset + limit)).filterMap
    (fun k => (storeGet s k).map (fun v => (k, v)))

/-- First-occurrence deduplication relative to an already-seen set, mirroring
the `seen` bookkeeping of `compactTag`. -/
def dedupFirstAux : List String → List String → List String
  | [], _ => []
  | k :: rest, seen =>
      if k ∈ seen then dedupFirstAux rest seen else k :: dedupFirstAux rest (seen ++ [k])

/-- Deduplicate a list preserving the first occurrence of each element. -/
def dedupFirst (l : List String) : List String := dedupFirstAux l []

/-- The compacted key list of record `l` against store `s`: first-occurrence
deduplication, keeping only keys that still hold a value. -/
def validKeysOf (s : Store V) (l : List String) : List String :=
  (dedupFirst l).filter (fun k => (storeGet s k).isSome)

/-- The write operations of the default TagIndex implementation
(`KeyvTagManager`), as an operation datatype for invariant statements. -/
inductive TagOp where
  | addKey (key tag : String)
  | removeKey (key tag : String)
  | setTags (key : String) (tags : List String)
  | delTag (tag : String)
  | delKeyAll (key : String)
  | compactOp (tags : List String)
  | clearOp

/-- Run one TagIndex write operation on the store. -/
def applyOp (s : Store V) : TagOp → Store V
  | .addKey key tag => KeyvTagManager.addKeyToTag s key tag
  | .removeKey key tag => KeyvTagManager.removeKeyFromTag s key tag
  | .setTags key tags => KeyvTagManager.setTagsForKey s key tags
  | .delTag tag => KeyvTagManager.deleteTag s tag
  | .delKeyAll key => KeyvTagManager.deleteKeyFromAllTags s key
  | .compactOp tags => tags.foldl (fun acc tag => KeyvTagManager.compactTag acc tag) s
  | .clearOp => KeyvTagManager.clear s

/-- Well-formed call: the tag list handed to `setTagsForKey` is duplicate-free
(the other operations take no list input that is stored verbatim). -/
def opWf : TagOp → Prop
  | .setTags _ tags => tags.Nodup
  | _ => True

/-- Invariant of claim C7: every index record held in the store — every
TagKeysRecord and every KeyTagsRecord — is a duplicate-free list. -/
def RecordsNodup (s : Store V) : Prop :=
  ∀ k l, storeGet s k = some (Val.tags l) → l.Nodup

/-!
## Basic store and namespace-marker lemmas
-/

theorem storeGet_cons (p : String × Val V) (s : Store V) (q : String) :
    storeGet (p :: s) q = if p.1 = q then some p.2 else storeGet s q := by
  by_cases hp : p.1 = q
  · simp [storeGet, List.find?_cons, hp]
  · have h2 : (p.1 == q) = false := by simp [hp]
    simp [storeGet, List.find?_cons, h2, hp]

theorem storeGet_filter_ne (s : Store V) (k q : String) (h : q ≠ k) :
    storeGet (s.filter (fun p => p.1 != k)) q = storeGet s q := by
  induction s with
  | nil => rfl
  | cons p rest ih =>
      rw [List.filter_cons]
      by_cases hk : p.1 = k
      · have h1 : (p.1 != k) = false := by simp [hk]
        rw [h1]
        simp only [Bool.false_eq_true, if_false]
        rw [ih, storeGet_cons]
        have : ¬p.1 = q := by rw [hk]; exact fun e => h e.symm
        simp [this]
      · have h1 : (p.1 != k) = true := by simp [hk]
        rw [h1]
        simp only [if_true]
        rw [storeGet_cons, storeGet_cons, ih]

theorem storeGet_set_self (s : Store V) (k : String) (v : Val V) :
    storeGet (storeSet s k v) k = some v := by
  simp [storeGet, storeSet, List.find?_cons]

theorem storeGet_set_ne (s : Store V) (k q : String) (v : Val V) (h : q ≠ k) :
    storeGet (storeSet s k v) q = storeGet s q := by
  rw [storeSet, storeGet_cons]
  have : ¬k = q := fun e => h e.symm
  simp only [this, if_false]
  exact storeGet_filter_ne s k q h

theorem storeGet_delete_self (s : Store V) (k : String) :
    storeGet (storeDelete s k) k = none := by
  have hf : List.find? (fun p => p.1 == k) (s.filter (fun p => p.1 != k)) = none := by
    rw [List.find?_eq_none]
    intro x hx
    have hx2 := (List.mem_filter.mp hx).2
    simp only [bne_iff_ne, ne_eq, decide_eq_true_eq] at hx2
    simp [hx2]
  simp [storeDelete, storeGet, hf]

theorem storeGet_delete_ne (s : Store V) (k q : String) (h : q ≠ k) :
    storeGet (storeDelete s k) q = storeGet s q :=
  storeGet_filter_ne s k q h

theorem tagMark_append_inj (a b : String) (h : tagMark ++ a = tagMark ++ b) : a = b := by
  have h2 := congrArg String.data h
  simp [tagMark, String.data_append] at h2
  cases a
  cases b
  simp_all

theorem keyTagsMark_ne_tagMark_append (a b : String) :
    keyTagsMark ++ a ≠ tagMark ++ b := by
  intro h
  have h2 := congrArg String.data h
  simp [tagMark, keyTagsMark, String.data_append] at h2

theorem ne_keyTagsMark_append_self (a : String) : a ≠ keyTagsMark ++ a := by
  intro h
  have h2 := congrArg String.length h
  have e2 : keyTagsMark.length = 9 := rfl
  rw [String.length_append, e2] at h2
  omega

/-!
## Frame lemmas for the tag-manager operations
-/

theorem getKeyTagMapKey_ne_getTagKey (a b : String) :
    KeyvTagManager.getKeyTagMapKey a ≠ KeyvTagManager.getTagKey b :=
  keyTagsMark_ne_tagMark_append a b

theorem ne_getKeyTagMapKey_self (a : String) : a ≠ KeyvTagManager.getKeyTagMapKey a :=
  ne_keyTagsMark_append_self a

theorem short_ne_tagMark_append (K : String) (hK : K.length < 8) :
    ∀ t, K ≠ tagMark ++ t := by
  intro t h
  have h2 := congrArg String.length h
  have e2 : tagMark.length = 8 := rfl
  rw [String.length_append, e2] at h2
  omega

theorem addKeyToTag_get_ne (s : Store V) (key tag q : String)
    (h : q ≠ KeyvTagManager.getTagKey tag) :
    storeGet (KeyvTagManager.addKeyToTag s key tag) q = storeGet s q := by
  simp only [KeyvTagManager.addKeyToTag]
  split
  · rfl
  · exact storeGet_set_ne _ _ _ _ h

theorem removeKeyFromTag_get_ne (s : Store V) (key tag q : String)
    (h : q ≠ KeyvTagManager.getTagKey tag) :
    storeGet (KeyvTagManager.removeKeyFromTag s key tag) q = storeGet s q := by
  simp only [KeyvTagManager.removeKeyFromTag]
  split
  · split
    · exact storeGet_set_ne _ _ _ _ h
    · exact storeGet_delete_ne _ _ _ h
  · rfl

theorem removeKeyFromTag_get_none (s : Store V) (key tag q : String)
    (h : storeGet s q = none) :
    storeGet (KeyvTagManager.removeKeyFromTag s key tag) q = none := by
  by_cases hq : q = KeyvTagManager.getTagKey tag
  · subst hq
    simp only [KeyvTagManager.removeKeyFromTag, h, isStringArray]
  · rw [removeKeyFromTag_get_ne s key tag q hq]
    exact h

theorem foldl_removeKey_get_ne (tags : List String) (s : Store V) (key q : String)
    (h : ∀ t, q ≠ KeyvTagManager.getTagKey t) :
    storeGet (tags.foldl (fun acc tag => KeyvTagManager.removeKeyFromTag acc key tag) s) q
      = storeGet s q := by
  induction tags generalizing s with
  | nil => rfl
  | cons t rest ih =>
      simp only [List.foldl_cons]
      rw [ih, removeKeyFromTag_get_ne _ _ _ _ (h t)]

theorem foldl_removeKey_get_none (tags : List String) (s : Store V) (key q : String)
    (h : storeGet s q = none) :
    storeGet (tags.foldl (fun acc tag => KeyvTagManager.removeKeyFromTag acc key tag) s) q
      = none := by
  induction tags generalizing s with
  | nil => exact h
  | cons t rest ih =>
      simp only [List.foldl_cons]
      exact ih _ (removeKeyFromTag_get_none _ _ _ _ h)

theorem foldl_addKey_get_ne (tags : List String) (s : Store V) (key q : String)
    (h : ∀ t, q ≠ KeyvTagManager.getTagKey t) :
    storeGet (tags.foldl (fun acc tag => KeyvTagManager.addKeyToTag acc key tag) s) q
      = storeGet s q := by
  induction tags generalizing s with
  | nil => rfl
  | cons t rest ih =>
      simp only [List.foldl_cons]
      rw [ih, addKeyToTag_get_ne _ _ _ _ (h t)]

theorem deleteKeyFromAllTags_get_ne (s : Store V) (key q : String)
    (h1 : ∀ t, q ≠ KeyvTagManager.getTagKey t)
    (h2 : q ≠ KeyvTagManager.getKeyTagMapKey key) :
    storeGet (KeyvTagManager.deleteKeyFromAllTags s key) q = storeGet s q := by
  simp only [KeyvTagManager.deleteKeyFromAllTags]
  split
  · rw [storeGet_delete_ne _ _ _ h2, foldl_removeKey_get_ne _ _ _ _ h1]
  · rfl

theorem deleteKeyFromAllTags_get_none (s : Store V) (key q : String)
    (h : storeGet s q = none) :
    storeGet (KeyvTagManager.deleteKeyFromAllTags s key) q = none := by
  simp only [KeyvTagManager.deleteKeyFromAllTags]
  split
  · by_cases hq : q = KeyvTagManager.getKeyTagMapKey key
    · subst hq
      exact storeGet_delete_self _ _
    · rw [storeGet_delete_ne _ _ _ hq]
      exact foldl_removeKey_get_none _ _ _ _ h
  · exact h

theorem deleteKeyFromAllTags_getTagsForKey (s : Store V) (key : String) :
    KeyvTagManager.getTagsForKey (KeyvTagManager.deleteKeyFromAllTags s key) key = [] := by
  cases h : isStringArray (storeGet s (KeyvTagManager.getKeyTagMapKey key)) with
  | none => simp [KeyvTagManager.getTagsForKey, KeyvTagManager.deleteKeyFromAllTags, h]
  | some l =>
      simp only [KeyvTagManager.getTagsForKey, KeyvTagManager.deleteKeyFromAllTags, h]
      rw [storeGet_delete_self]
      rfl

theorem setTagsForKey_get_ne (s : Store V) (key : String) (tags : List String) (q : String)
    (h1 : ∀ t, q ≠ KeyvTagManager.getTagKey t)
    (h2 : q ≠ KeyvTagManager.getKeyTagMapKey key) :
    storeGet (KeyvTagManager.setTagsForKey s key tags) q = storeGet s q := by
  simp only [KeyvTagManager.setTagsForKey]
  split
  · rw [foldl_addKey_get_ne _ _ _ _ h1, storeGet_set_ne _ _ _ _ h2,
      deleteKeyFromAllTags_get_ne _ _ _ h1 h2]
  · rw [storeGet_delete_ne _ _ _ h2, deleteKeyFromAllTags_get_ne _ _ _ h1 h2]

theorem setTagsForKey_get_mapKey (s : Store V) (key : String) (tags : List String)
    (hlen : 0 < tags.length) :
    storeGet (KeyvTagManager.setTagsForKey s key tags) (KeyvTagManager.getKeyTagMapKey key)
      = some (Val.tags tags) := by
  simp only [KeyvTagManager.setTagsForKey]
  rw [if_pos hlen]
  rw [foldl_addKey_get_ne _ _ _ _ (fun t => getKeyTagMapKey_ne_getTagKey key t),
    storeGet_set_self]

theorem setDefault_pos (s : Store V) (key : String) (v : V) (tags : List String)
    (hlen : 0 < tags.length) :
    TaggedKeyv.setDefault s key v tags
      = KeyvTagManager.setTagsForKey (storeSet s key (Val.user v)) key tags := by
  simp [TaggedKeyv.setDefault, TaggedKeyv.set, TaggedKeyv.kvIndex, hlen]

theorem setDefault_nil (s : Store V) (key : String) (v : V) :
    TaggedKeyv.setDefault s key v [] = storeSet s key (Val.user v) := by
  simp [TaggedKeyv.setDefault, TaggedKeyv.set]

/-!
## Claims C1, C2, C4, C10
-/

/-- Claim C1 counterexample: the claim quantifies over every tag list `T`,
including the empty one; but `set("k", 1, tags [])` after an earlier
`set("k", 0, tags ["a"])` skips the tag-index step entirely, so
`getTagsForKey("k")` still returns `["a"]` rather than exactly the tags of
`T = []`. -/
theorem claim_C1_cex :
    TaggedKeyv.getTagsForKey
        (TaggedKeyv.setDefault (TaggedKeyv.setDefault ([] : Store Nat) "k" 0 ["a"]) "k" 1 [])
        "k" = ["a"] ∧
    ¬ TaggedKeyv.getTagsForKey
        (TaggedKeyv.setDefault (TaggedKeyv.setDefault ([] : Store Nat) "k" 0 ["a"]) "k" 1 [])
        "k" = ([] : List String) := by
  constructor
  · decide
  · decide

/-- Claim C1 (amended): for every prior store state, key `K` outside the
tag-record namespace (not of the form `__tag__:` + t) and non-empty tag list
`T`, after `set(K, V, tags T)` on the default instance, `get(K)` returns `V`
and `getTagsForKey(K)` returns exactly the tags `T` (verbatim, hence in
particular up to order), including when `K` had been set with different tags
before. -/
theorem claim_C1_amended (s : Store V) (K : String) (v : V) (T : List String)
    (hT : T ≠ []) (hK : ∀ t, K ≠ tagMark ++ t) :
    TaggedKeyv.get (TaggedKeyv.setDefault s K v T) K = some (Val.user v) ∧
    TaggedKeyv.getTagsForKey (TaggedKeyv.setDefault s K v T) K = T := by
  have hlen : 0 < T.length := List.length_pos.mpr hT
  rw [TaggedKeyv.get, TaggedKeyv.getTagsForKey, setDefault_pos s K v T hlen]
  constructor
  · rw [setTagsForKey_get_ne _ _ _ _ (fun t => hK t) (ne_getKeyTagMapKey_self K)]
    exact storeGet_set_self _ _ _
  · rw [KeyvTagManager.getTagsForKey, setTagsForKey_get_mapKey _ _ _ hlen]
    rfl

/-- Witness for claim C1 (amended) at a concrete input. -/
theorem claim_C1_amended_witness :
    TaggedKeyv.get (TaggedKeyv.setDefault ([] : Store Nat) "user:1" 5 ["a", "b"]) "user:1"
        = some (Val.user 5) ∧
    TaggedKeyv.getTagsForKey (TaggedKeyv.setDefault ([] : Store Nat) "user:1" 5 ["a", "b"])
        "user:1" = ["a", "b"] :=
  claim_C1_amended [] "user:1" 5 ["a", "b"] (by decide)
    (short_ne_tagMark_append "user:1" (by decide))

/-- Claim C2: during `set(K, V, tags T)` with non-empty `T`, when the primary
write succeeds but the tag-index update fails with message `e`, `set` surfaces
an error that communicates the tag-update failure, and afterwards `K` is absent
from the store and has no tag associations; when the cleanup call itself also
fails, the surfaced error is still the original tag-update failure (cleanup
failures are logged, never thrown). -/
theorem claim_C2 (s : Store V) (K : String) (v : V) (T : List String) (e e2 : String)
    (hT : T ≠ []) :
    (TaggedKeyv.set (TaggedKeyv.failingSetIndex V e) s K v T).1 =
        .error ("Failed to set tags for key \"" ++ K ++ "\": " ++ e) ∧
    storeGet (TaggedKeyv.set (TaggedKeyv.failingSetIndex V e) s K v T).2 K = none ∧
    TaggedKeyv.getTagsForKey (TaggedKeyv.set (TaggedKeyv.failingSetIndex V e) s K v T).2 K
        = [] ∧
    (TaggedKeyv.set (TaggedKeyv.fullyFailingIndex V e e2) s K v T).1 =
        .error ("Failed to set tags for key \"" ++ K ++ "\": " ++ e) := by
  have hlen : 0 < T.length := List.length_pos.mpr hT
  have hset : TaggedKeyv.set (TaggedKeyv.failingSetIndex V e) s K v T
      = (.error ("Failed to set tags for key \"" ++ K ++ "\": " ++ e),
         KeyvTagManager.deleteKeyFromAllTags (storeDelete (storeSet s K (Val.user v)) K) K) := by
    simp [TaggedKeyv.set, TaggedKeyv.failingSetIndex, TaggedKeyv.cleanupFailedSet, hlen]
  refine ⟨?_, ?_, ?_, ?_⟩
  · rw [hset]
  · rw [hset]
    exact deleteKeyFromAllTags_get_none _ _ _ (storeGet_delete_self _ _)
  · rw [hset]
    exact deleteKeyFromAllTags_getTagsForKey _ _
  · simp [TaggedKeyv.set, TaggedKeyv.fullyFailingIndex, TaggedKeyv.cleanupFailedSet, hlen]

/-- Witness for claim C2 at a concrete input. -/
theorem claim_C2_witness :
    storeGet (TaggedKeyv.set (TaggedKeyv.failingSetIndex Nat "boom") [] "k" 0 ["a"]).2 "k"
      = none :=
  (claim_C2 [] "k" 0 ["a"] "boom" "oops" (by decide)).2.1

/-- Claim C4: `compact` called with no tag list always fails with the distinct
"Global tag compaction not implemented" error instead of performing global
compaction (and `TaggedKeyv.compactTags` propagates this failure, wrapped); it
never silently succeeds without a tag list. -/
theorem claim_C4 (s : Store V) :
    KeyvTagManager.compact s none =
      .error "Global tag compaction not implemented. Please specify tags to compact." ∧
    TaggedKeyv.compactTags s none =
      .error ("Failed to compact tags: "
        ++ "Global tag compaction not implemented. Please specify tags to compact.") :=
  ⟨rfl, rfl⟩

/-- Claim C10 counterexample: for the key `K = "__tag__:t"`, which lives inside
the tag-record namespace, an untagged `set(K, 1)` overwrites the TagKeysRecord
of tag `t`, so the tag association `K` acquired from the earlier tagged set is
lost rather than left unchanged. -/
theorem claim_C10_cex :
    "__tag__:t" ∈ KeyvTagManager.getKeysForTag
        (TaggedKeyv.setDefault ([] : Store Nat) "__tag__:t" 0 ["t"]) "t" ∧
    "__tag__:t" ∉ KeyvTagManager.getKeysForTag
        (TaggedKeyv.setDefault
          (TaggedKeyv.setDefault ([] : Store Nat) "__tag__:t" 0 ["t"]) "__tag__:t" 1 [])
        "t" := by
  constructor
  · decide
  · decide

/-- Claim C10 (amended): `set(K, V)` with an empty (or absent, after parameter
parsing) tag list only overwrites the payload: `getTagsForKey(K)` is unchanged
for every key, and for every key `K` outside the tag-record namespace every
tag's key list is unchanged as well, so earlier tag associations of `K`
remain. -/
theorem claim_C10_amended (s : Store V) (K : String) (v : V) :
    TaggedKeyv.setDefault s K v [] = storeSet s K (Val.user v) ∧
    TaggedKeyv.getTagsForKey (TaggedKeyv.setDefault s K v []) K
        = TaggedKeyv.getTagsForKey s K ∧
    ((∀ t, K ≠ tagMark ++ t) →
      ∀ tg, KeyvTagManager.getKeysForTag (TaggedKeyv.setDefault s K v []) tg
          = KeyvTagManager.getKeysForTag s tg) := by
  refine ⟨setDefault_nil s K v, ?_, ?_⟩
  · rw [TaggedKeyv.getTagsForKey, TaggedKeyv.getTagsForKey,
      KeyvTagManager.getTagsForKey, KeyvTagManager.getTagsForKey, setDefault_nil,
      storeGet_set_ne _ _ _ _ (Ne.symm (ne_getKeyTagMapKey_self K))]
  · intro hK tg
    have hne : KeyvTagManager.getTagKey tg ≠ K := fun h => hK tg h.symm
    rw [KeyvTagManager.getKeysForTag, KeyvTagManager.getKeysForTag, setDefault_nil,
      storeGet_set_ne _ _ _ _ hne]

/-- Witness for claim C10 (amended) at a concrete input. -/
theorem claim_C10_amended_witness :
    KeyvTagManager.getKeysForTag (TaggedKeyv.setDefault ([] : Store Nat) "user:1" 5 []) "a"
      = KeyvTagManager.getKeysForTag ([] : Store Nat) "a" :=
  (claim_C10_amended [] "user:1" 5).2.2 (short_ne_tagMark_append "user:1" (by decide)) "a"

/-!
## Claim C6: idempotent association
-/

theorem addKeyToTag_mem (s : Store V) (key tag : String)
    (h : key ∈ KeyvTagManager.getKeysForTag s tag) :
    KeyvTagManager.addKeyToTag s key tag = s := by
  rw [KeyvTagManager.getKeysForTag] at h
  simp only [KeyvTagManager.addKeyToTag]
  rw [if_pos h]

theorem addKeyToTag_not_mem (s : Store V) (key tag : String)
    (h : key ∉ KeyvTagManager.getKeysForTag s tag) :
    KeyvTagManager.addKeyToTag s key tag
      = storeSet s (KeyvTagManager.getTagKey tag)
          (Val.tags (KeyvTagManager.getKeysForTag s tag ++ [key])) := by
  rw [KeyvTagManager.getKeysForTag] at h
  simp only [KeyvTagManager.addKeyToTag, KeyvTagManager.getKeysForTag]
  rw [if_neg h]

theorem addKeyToTag_getKeysForTag (s : Store V) (key tag : String) :
    KeyvTagManager.getKeysForTag (KeyvTagManager.addKeyToTag s key tag) tag
      = if key ∈ KeyvTagManager.getKeysForTag s tag
        then KeyvTagManager.getKeysForTag s tag
        else KeyvTagManager.getKeysForTag s tag ++ [key] := by
  by_cases hm : key ∈ KeyvTagManager.getKeysForTag s tag
  · rw [if_pos hm, addKeyToTag_mem s key tag hm]
  · rw [if_neg hm, addKeyToTag_not_mem s key tag hm, KeyvTagManager.getKeysForTag,
      storeGet_set_self]
    rfl

/-- Claim C6: `addKeyToTag` is idempotent — on a duplicate-free tag record (the
documented invariant of the index's own writes), calling it twice (the second
call is a no-op, as is any call when the key is already present, so any number
of calls behaves like one) leaves `getKeysForTag` containing the key exactly
once, with no duplicate appended and no write performed when the key is already
present. -/
theorem claim_C6 (s : Store V) (key tag : String)
    (hnd : (KeyvTagManager.getKeysForTag s tag).Nodup) :
    KeyvTagManager.addKeyToTag (KeyvTagManager.addKeyToTag s key tag) key tag
      = KeyvTagManager.addKeyToTag s key tag ∧
    List.count key (KeyvTagManager.getKeysForTag (KeyvTagManager.addKeyToTag s key tag) tag)
      = 1 ∧
    (key ∈ KeyvTagManager.getKeysForTag s tag → KeyvTagManager.addKeyToTag s key tag = s) := by
  by_cases hm : key ∈ KeyvTagManager.getKeysForTag s tag
  · have h1 : KeyvTagManager.addKeyToTag s key tag = s := addKeyToTag_mem s key tag hm
    refine ⟨by rw [h1, h1], ?_, fun _ => h1⟩
    rw [h1]
    exact List.count_eq_one_of_mem hnd hm
  · have h2 := addKeyToTag_getKeysForTag s key tag
    rw [if_neg hm] at h2
    refine ⟨?_, ?_, fun hmem => absurd hmem hm⟩
    · apply addKeyToTag_mem
      rw [h2]
      simp
    · rw [h2, List.count_append, List.count_eq_zero.mpr hm]
      simp

/-- Witness for claim C6 at a concrete input. -/
theorem claim_C6_witness :
    List.count "k" (KeyvTagManager.getKeysForTag
        (KeyvTagManager.addKeyToTag ([] : Store Nat) "k" "t") "t") = 1 :=
  (claim_C6 [] "k" "t" (by decide)).2.1

/-!
## Claim C5: per-tag compaction
-/

theorem compactLoop_eq (s : Store V) (keys : List String) :
    ∀ seen valid, KeyvTagManager.compactLoop s keys seen valid
      = valid ++ (dedupFirstAux keys seen).filter (fun k => (storeGet s k).isSome) := by
  induction keys with
  | nil => intro seen valid; simp [KeyvTagManager.compactLoop, dedupFirstAux]
  | cons k rest ih =>
      intro seen valid
      simp only [KeyvTagManager.compactLoop, dedupFirstAux]
      by_cases hs : k ∈ seen
      · rw [if_pos hs, if_pos hs, ih]
      · rw [if_neg hs, if_neg hs]
        by_cases ha : (storeGet s k).isSome
        · rw [if_pos ha, ih]
          simp [List.filter_cons, ha]
        · rw [if_neg ha, ih]
          simp [List.filter_cons, ha]

theorem dedupFirstAux_sublist (l : List String) :
    ∀ seen, List.Sublist (dedupFirstAux l seen) l := by
  induction l with
  | nil => intro seen; simp [dedupFirstAux]
  | cons k rest ih =>
      intro seen
      simp only [dedupFirstAux]
      by_cases hs : k ∈ seen
      · rw [if_pos hs]
        exact (ih seen).cons k
      · rw [if_neg hs]
        exact (ih (seen ++ [k])).cons₂ k

theorem dedupFirstAux_not_mem_seen (l : List String) :
    ∀ seen x, x ∈ dedupFirstAux l seen → x ∉ seen := by
  induction l with
  | nil => intro seen x hx; simp [dedupFirstAux] at hx
  | cons k rest ih =>
      intro seen x hx
      simp only [dedupFirstAux] at hx
      by_cases hs : k ∈ seen
      · rw [if_pos hs] at hx
        exact ih seen x hx
      · rw [if_neg hs] at hx
        rcases List.mem_cons.mp hx with h1 | h2
        · subst h1; exact hs
        · intro hxs
          exact ih _ x h2 (List.mem_append_left _ hxs)

theorem dedupFirstAux_nodup (l : List String) :
    ∀ seen, (dedupFirstAux l seen).Nodup := by
  induction l with
  | nil => intro seen; simp [dedupFirstAux]
  | cons k rest ih =>
      intro seen
      simp only [dedupFirstAux]
      by_cases hs : k ∈ seen
      · rw [if_pos hs]
        exact ih seen
      · rw [if_neg hs]
        rw [List.nodup_cons]
        refine ⟨fun hk => ?_, ih (seen ++ [k])⟩
        exact dedupFirstAux_not_mem_seen rest _ k hk
          (List.mem_append_right _ (List.mem_singleton_self k))

theorem validKeysOf_sublist (s : Store V) (l : List String) :
    List.Sublist (validKeysOf s l) l :=
  (List.filter_sublist _).trans (dedupFirstAux_sublist l [])

theorem validKeysOf_nodup (s : Store V) (l : List String) : (validKeysOf s l).Nodup :=
  (dedupFirstAux_nodup l []).filter _

theorem compactTag_spec (s : Store V) (tag : String) (l : List String)
    (h : storeGet s (KeyvTagManager.getTagKey tag) = some (Val.tags l)) :
    KeyvTagManager.compactTag s tag
      = (if (validKeysOf s l).length = l.length then s
         else if 0 < (validKeysOf s l).length
           then storeSet s (KeyvTagManager.getTagKey tag) (Val.tags (validKeysOf s l))
           else storeDelete s (KeyvTagManager.getTagKey tag)) := by
  simp only [KeyvTagManager.compactTag, h, isStringArray]
  rw [compactLoop_eq]
  simp only [List.nil_append]
  rw [show (dedupFirstAux l []).filter (fun k => (storeGet s k).isSome) = validKeysOf s l
      from rfl]
  by_cases he : (validKeysOf s l).length = l.length
  · simp [he]
  · simp [he]

/-- Claim C5 (amended): for every tag in the list passed to `compact`, each tag
is compacted in order; on a tag whose stored record is the list `l`, the
resulting key list is `l` deduplicated preserving first occurrences and
filtered to keys that still hold a value; nothing is written when the filtered
list did not change; and the TagKeysRecord ends up deleted exactly when the
filtered list is empty and the original list was not already empty. -/
theorem claim_C5 (s : Store V) (tag : String) (l : List String) (ts : List String)
    (h : storeGet s (KeyvTagManager.getTagKey tag) = some (Val.tags l)) :
    KeyvTagManager.compact s (some ts)
        = .ok (ts.foldl (fun acc t => KeyvTagManager.compactTag acc t) s) ∧
    KeyvTagManager.getKeysForTag (KeyvTagManager.compactTag s tag) tag = validKeysOf s l ∧
    ((validKeysOf s l).length = l.length → KeyvTagManager.compactTag s tag = s) ∧
    (storeGet (KeyvTagManager.compactTag s tag) (KeyvTagManager.getTagKey tag) = none
      ↔ validKeysOf s l = [] ∧ l ≠ []) := by
  have hspec := compactTag_spec s tag l h
  refine ⟨rfl, ?_, ?_, ?_⟩
  · rw [hspec]
    by_cases he : (validKeysOf s l).length = l.length
    · rw [if_pos he]
      have hv : validKeysOf s l = l := (validKeysOf_sublist s l).eq_of_length he
      rw [KeyvTagManager.getKeysForTag, h, hv]
      rfl
    · rw [if_neg he]
      by_cases hp : 0 < (validKeysOf s l).length
      · rw [if_pos hp, KeyvTagManager.getKeysForTag, storeGet_set_self]
        rfl
      · rw [if_neg hp, KeyvTagManager.getKeysForTag, storeGet_delete_self]
        have : (validKeysOf s l).length = 0 := by omega
        rw [List.length_eq_zero.mp this]
        rfl
  · intro he
    rw [hspec, if_pos he]
  · rw [hspec]
    by_cases he : (validKeysOf s l).length = l.length
    · rw [if_pos he]
      constructor
      · intro hn
        rw [h] at hn
        exact absurd hn (by simp)
      · rintro ⟨hv, hl⟩
        rw [hv] at he
        exact absurd (List.length_eq_zero.mp he.symm) hl
    · rw [if_neg he]
      by_cases hp : 0 < (validKeysOf s l).length
      · rw [if_pos hp]
        constructor
        · intro hn
          rw [storeGet_set_self] at hn
          exact absurd hn (by simp)
        · rintro ⟨hv, _⟩
          rw [hv] at hp
          exact absurd hp (by simp)
      · rw [if_neg hp]
        constructor
        · intro _
          have h0 : (validKeysOf s l).length = 0 := by omega
          refine ⟨List.length_eq_zero.mp h0, ?_⟩
          intro hl
          rw [hl] at he h0
          exact he (by rw [h0]; rfl)
        · intro _
          exact storeGet_delete_self _ _

/-- Witness for claim C5 at a concrete input. -/
theorem claim_C5_witness :
    KeyvTagManager.getKeysForTag
        (KeyvTagManager.compactTag
          ([("__tag__:t", Val.tags ["k1", "k1", "dead"]), ("k1", Val.user 0)] : Store Nat)
          "t") "t"
      = validKeysOf
          ([("__tag__:t", Val.tags ["k1", "k1", "dead"]), ("k1", Val.user 0)] : Store Nat)
          ["k1", "k1", "dead"] :=
  (claim_C5 [("__tag__:t", Val.tags ["k1", "k1", "dead"]), ("k1", Val.user 0)]
      "t" ["k1", "k1", "dead"] ["t"] (by decide)).2.1

/-- Claim C5 counterexample: on a stored TagKeysRecord that is already the empty
list, the filtered list is empty, yet `compact` does not delete the record (the
length did not change), contradicting the clause that the TagKeysRecord is
deleted if the filtered list is empty. -/
theorem claim_C5_cex :
    KeyvTagManager.compact ([("__tag__:t", Val.tags ([] : List String))] : Store Nat)
        (some ["t"])
      = .ok [("__tag__:t", Val.tags ([] : List String))] ∧
    storeGet
        (KeyvTagManager.compactTag
          ([("__tag__:t", Val.tags ([] : List String))] : Store Nat) "t")
        "__tag__:t"
      = some (Val.tags ([] : List String)) := by
  refine ⟨rfl, ?_⟩
  decide

/-!
## Claim C7: duplicate-freedom invariant of the index records
-/

theorem isStringArray_eq_some (v : Option (Val V)) (l : List String) :
    isStringArray v = some l ↔ v = some (Val.tags l) := by
  cases v with
  | none => simp [isStringArray]
  | some x => cases x <;> simp [isStringArray]

theorem RecordsNodup_set_tags (s : Store V) (k : String) (l : List String)
    (hs : RecordsNodup s) (hl : l.Nodup) : RecordsNodup (storeSet s k (Val.tags l)) := by
  intro q m hq
  by_cases h : q = k
  · subst h
    rw [storeGet_set_self] at hq
    simp only [Option.some.injEq, Val.tags.injEq] at hq
    rw [← hq]
    exact hl
  · rw [storeGet_set_ne _ _ _ _ h] at hq
    exact hs q m hq

theorem RecordsNodup_delete (s : Store V) (k : String)
    (hs : RecordsNodup s) : RecordsNodup (storeDelete s k) := by
  intro q m hq
  by_cases h : q = k
  · subst h
    rw [storeGet_delete_self] at hq
    simp at hq
  · rw [storeGet_delete_ne _ _ _ h] at hq
    exact hs q m hq

theorem records_getKeysForTag_nodup (s : Store V) (tag : String) (hs : RecordsNodup s) :
    (KeyvTagManager.getKeysForTag s tag).Nodup := by
  rw [KeyvTagManager.getKeysForTag]
  cases hv : storeGet s (KeyvTagManager.getTagKey tag) with
  | none => simp [isStringArray]
  | some v =>
      cases v with
      | user a => simp [isStringArray]
      | tags l => simpa [isStringArray] using hs _ l hv

theorem records_getTagsForKey_nodup (s : Store V) (key : String) (hs : RecordsNodup s) :
    (KeyvTagManager.getTagsForKey s key).Nodup := by
  rw [KeyvTagManager.getTagsForKey]
  cases hv : storeGet s (KeyvTagManager.getKeyTagMapKey key) with
  | none => simp [isStringArray]
  | some v =>
      cases v with
      | user a => simp [isStringArray]
      | tags l => simpa [isStringArray] using hs _ l hv

theorem RN_addKeyToTag (s : Store V) (key tag : String)
    (hs : RecordsNodup s) : RecordsNodup (KeyvTagManager.addKeyToTag s key tag) := by
  by_cases hm : key ∈ KeyvTagManager.getKeysForTag s tag
  · rw [addKeyToTag_mem s key tag hm]
    exact hs
  · rw [addKeyToTag_not_mem s key tag hm]
    apply RecordsNodup_set_tags s _ _ hs
    have h1 := records_getKeysForTag_nodup s tag hs
    simp [List.nodup_append, h1, hm]

theorem RN_removeKeyFromTag (s : Store V) (key tag : String)
    (hs : RecordsNodup s) : RecordsNodup (KeyvTagManager.removeKeyFromTag s key tag) := by
  simp only [KeyvTagManager.removeKeyFromTag]
  split
  next existing hv =>
    split
    · exact RecordsNodup_set_tags _ _ _ hs
        ((hs _ existing ((isStringArray_eq_some _ _).mp hv)).filter _)
    · exact RecordsNodup_delete _ _ hs
  next => exact hs

theorem RN_foldl {β : Type} (f : Store V → β → Store V)
    (hf : ∀ s x, RecordsNodup s → RecordsNodup (f s x)) :
    ∀ (l : List β) (s : Store V), RecordsNodup s → RecordsNodup (l.foldl f s) := by
  intro l
  induction l with
  | nil => intro s hs; exact hs
  | cons x rest ih =>
      intro s hs
      exact ih _ (hf s x hs)

theorem RN_deleteKeyFromAllTags (s : Store V) (key : String)
    (hs : RecordsNodup s) : RecordsNodup (KeyvTagManager.deleteKeyFromAllTags s key) := by
  simp only [KeyvTagManager.deleteKeyFromAllTags]
  split
  next tags hv =>
    exact RecordsNodup_delete _ _
      (RN_foldl _ (fun s2 t hs2 => RN_removeKeyFromTag s2 key t hs2) tags s hs)
  next => exact hs

theorem RN_setTagsForKey (s : Store V) (key : String) (tags : List String)
    (htags : tags.Nodup) (hs : RecordsNodup s) :
    RecordsNodup (KeyvTagManager.setTagsForKey s key tags) := by
  simp only [KeyvTagManager.setTagsForKey]
  split
  · exact RN_foldl _ (fun s2 t hs2 => RN_addKeyToTag s2 key t hs2) tags _
      (RecordsNodup_set_tags _ _ _ (RN_deleteKeyFromAllTags s key hs) htags)
  · exact RecordsNodup_delete _ _ (RN_deleteKeyFromAllTags s key hs)

theorem RN_deleteTag (s : Store V) (tag : String)
    (hs : RecordsNodup s) : RecordsNodup (KeyvTagManager.deleteTag s tag) := by
  simp only [KeyvTagManager.deleteTag]
  apply RecordsNodup_delete
  split
  next keys hv =>
    refine RN_foldl _ ?_ keys s hs
    intro s2 k hs2
    split
    · exact RecordsNodup_set_tags _ _ _ hs2
        ((records_getTagsForKey_nodup s2 k hs2).filter _)
    · exact RecordsNodup_delete _ _ hs2
  next => exact hs

theorem RN_compactTag (s : Store V) (tag : String)
    (hs : RecordsNodup s) : RecordsNodup (KeyvTagManager.compactTag s tag) := by
  simp only [KeyvTagManager.compactTag]
  split
  next existing hv =>
    split
    · split
      · apply RecordsNodup_set_tags _ _ _ hs
        rw [compactLoop_eq]
        simp only [List.nil_append]
        exact (dedupFirstAux_nodup existing []).filter _
      · exact RecordsNodup_delete _ _ hs
    · exact hs
  next => exact hs

theorem RN_clear (s : Store V) : RecordsNodup (KeyvTagManager.clear s) := by
  intro q m hq
  simp [KeyvTagManager.clear, storeGet] at hq

/-- Claim C7 (amended): starting from a store whose index records are all
duplicate-free, every TagIndex write operation preserves the invariant that no
key appears more than once in any TagKeysRecord and no tag appears more than
once in any KeyTagsRecord, provided the tag list passed to `setTagsForKey` is
itself duplicate-free (it is stored verbatim). -/
theorem claim_C7_amended (op : TagOp) (s : Store V) (hop : opWf op)
    (hs : RecordsNodup s) : RecordsNodup (applyOp s op) := by
  cases op with
  | addKey key tag => exact RN_addKeyToTag s key tag hs
  | removeKey key tag => exact RN_removeKeyFromTag s key tag hs
  | setTags key tags => exact RN_setTagsForKey s key tags hop hs
  | delTag tag => exact RN_deleteTag s tag hs
  | delKeyAll key => exact RN_deleteKeyFromAllTags s key hs
  | compactOp tags => exact RN_foldl _ (fun s2 t hs2 => RN_compactTag s2 t hs2) tags s hs
  | clearOp => exact RN_clear s

/-- Witness for claim C7 (amended) at a concrete input. -/
theorem claim_C7_amended_witness :
    RecordsNodup (applyOp ([] : Store Nat) (TagOp.setTags "k" ["a", "b"])) :=
  claim_C7_amended (TagOp.setTags "k" ["a", "b"]) []
    (show (["a", "b"] : List String).Nodup by decide)
    (fun k l h => by simp [storeGet] at h)

/-- Claim C7 counterexample: `setTagsForKey` stores the given tag list verbatim,
so a call with a duplicated tag list produces a KeyTagsRecord in which one tag
appears twice, contradicting the invariant as claimed for every input. -/
theorem claim_C7_cex :
    List.count "a"
        (KeyvTagManager.getTagsForKey
          (KeyvTagManager.setTagsForKey ([] : Store Nat) "k" ["a", "a"]) "k") = 2 ∧
    ¬ (KeyvTagManager.getTagsForKey
          (KeyvTagManager.setTagsForKey ([] : Store Nat) "k" ["a", "a"]) "k").Nodup := by
  constructor
  · decide
  · decide

/-!
## Claim C3: getByTag pagination
-/

theorem jsSlice_nil {α : Type} (a b : Int) : TaggedKeyv.jsSlice ([] : List α) a b = [] := by
  simp [TaggedKeyv.jsSlice]

theorem jsSlice_nonneg {α : Type} (l : List α) (a b : Int) (ha : 0 ≤ a) (hb : 0 ≤ b) :
    TaggedKeyv.jsSlice l a (a + b) = (l.drop a.toNat).take b.toNat := by
  have hn : (0 : Int) ≤ (l.length : Int) := Int.natCast_nonneg _
  simp only [TaggedKeyv.jsSlice]
  rw [if_neg (by omega : ¬ a < 0), if_neg (by omega : ¬ a + b < 0)]
  by_cases hna : (l.length : Int) ≤ a
  · have e1 : min a (l.length : Int) = (l.length : Int) := min_eq_right hna
    have e2 : min (a + b) (l.length : Int) = (l.length : Int) := min_eq_right (by omega)
    rw [e1, e2, if_neg (lt_irrefl _)]
    rw [List.drop_eq_nil_of_le (by omega : l.length ≤ a.toNat)]
    simp
  · push_neg at hna
    have e1 : min a (l.length : Int) = a := min_eq_left (by omega)
    rw [e1]
    by_cases hb0 : b = 0
    · subst hb0
      have e2 : min (a + 0) (l.length : Int) = a := by
        rw [add_zero]
        exact min_eq_left (by omega)
      rw [e2, if_neg (lt_irrefl _)]
      simp
    · have hb1 : 0 < b := by omega
      by_cases h2 : a + b ≤ (l.length : Int)
      · have e2 : min (a + b) (l.length : Int) = a + b := min_eq_left h2
        rw [e2, if_pos (by omega : a < a + b)]
        congr 1
        omega
      · have e2 : min (a + b) (l.length : Int) = (l.length : Int) := min_eq_right (by omega)
        rw [e2, if_pos (by omega : a < (l.length : Int))]
        rw [List.take_of_length_le (by rw [List.length_drop]; omega),
          List.take_of_length_le (by rw [List.length_drop]; omega)]

theorem sliceIdx_ge {α : Type} (l : List α) :
    ∀ (i a b : Int), a ≤ i → sliceIdx l i a b = l.take (b - i).toNat := by
  induction l with
  | nil => intro i a b h; simp [sliceIdx]
  | cons x xs ih =>
      intro i a b h
      simp only [sliceIdx]
      by_cases hib : i < b
      · rw [if_pos ⟨h, hib⟩, ih (i + 1) a b (by omega)]
        have hsucc : (b - i).toNat = (b - (i + 1)).toNat + 1 := by omega
        rw [hsucc, List.take_succ_cons]
        rfl
      · rw [if_neg (fun hc => hib hc.2), ih (i + 1) a b (by omega)]
        have h1 : (b - (i + 1)).toNat = 0 := by omega
        have h2 : (b - i).toNat = 0 := by omega
        rw [h1, h2]
        simp

theorem sliceIdx_le {α : Type} (l : List α) :
    ∀ (i a b : Int), i ≤ a →
      sliceIdx l i a b = (l.drop (a - i).toNat).take (b - a).toNat := by
  induction l with
  | nil => intro i a b h; simp [sliceIdx]
  | cons x xs ih =>
      intro i a b h
      by_cases hia : i = a
      · subst hia
        have h0 : (i - i).toNat = 0 := by omega
        rw [h0, List.drop_zero]
        simp only [sliceIdx]
        by_cases hib : i < b
        · rw [if_pos ⟨le_refl i, hib⟩, sliceIdx_ge xs (i + 1) i b (by omega)]
          have hsucc : (b - i).toNat = (b - (i + 1)).toNat + 1 := by omega
          rw [hsucc, List.take_succ_cons]
          rfl
        · rw [if_neg (fun hc => hib hc.2), sliceIdx_ge xs (i + 1) i b (by omega)]
          have h1 : (b - (i + 1)).toNat = 0 := by omega
          have h2 : (b - i).toNat = 0 := by omega
          rw [h1, h2]
          simp
      · have hlt : i < a := by omega
        simp only [sliceIdx]
        rw [if_neg (fun hc => absurd hc.1 (by omega)), ih (i + 1) a b (by omega)]
        have hsucc : (a - i).toNat = (a - (i + 1)).toNat + 1 := by omega
        rw [hsucc, List.drop_succ_cons]
        rfl

theorem getByTag_fst (s : Store V) (tag : String) (page limit : Int) :
    (TaggedKeyv.getByTag s tag page limit).1
      = (TaggedKeyv.jsSlice (KeyvTagManager.getKeysForTag s tag)
            ((max 1 page - 1) * limit) ((max 1 page - 1) * limit + limit)).filterMap
          (fun k => (storeGet s k).map (fun v => (k, v))) := by
  simp only [TaggedKeyv.getByTag]
  by_cases h0 : (KeyvTagManager.getKeysForTag s tag).length = 0
  · rw [if_pos h0]
    rw [List.length_eq_zero.mp h0, jsSlice_nil]
    rfl
  · rw [if_neg h0]
    by_cases h1 : (TaggedKeyv.jsSlice (KeyvTagManager.getKeysForTag s tag)
        ((max 1 page - 1) * limit) ((max 1 page - 1) * limit + limit)).length = 0
    · rw [if_pos h1]
      rw [List.length_eq_zero.mp h1]
      rfl
    · rw [if_neg h1]

/-- Claim C3 (amended): for every tag, page, and nonnegative limit, `getByTag`
clamps the page to a minimum of 1, computes the zero-based offset
`(page − 1) * limit`, and returns the (key, value) pairs for the slice
`[offset, offset + limit)` of the tag's key list in the list's order (keys whose
payload is gone yield no pair); a tag with no keys and a page beyond the range
both yield an empty sequence, never an error.  For negative limits the code
falls back to JavaScript slice semantics and deviates from the stated interval,
hence the nonnegativity hypothesis. -/
theorem claim_C3_amended (s : Store V) (tag : String) (page limit : Int)
    (hlim : 0 ≤ limit) :
    (TaggedKeyv.getByTag s tag page limit).1 = getByTagSpecified s tag page limit ∧
    (KeyvTagManager.getKeysForTag s tag = [] →
      (TaggedKeyv.getByTag s tag page limit).1 = []) ∧
    (((KeyvTagManager.getKeysForTag s tag).length : Int) ≤ (max 1 page - 1) * limit →
      (TaggedKeyv.getByTag s tag page limit).1 = []) := by
  have hoff : 0 ≤ (max 1 page - 1) * limit := mul_nonneg (by omega) hlim
  have hslice := jsSlice_nonneg (KeyvTagManager.getKeysForTag s tag)
    ((max 1 page - 1) * limit) limit hoff hlim
  have hspec : getByTagSpecified s tag page limit
      = (((KeyvTagManager.getKeysForTag s tag).drop ((max 1 page - 1) * limit).toNat).take
          limit.toNat).filterMap (fun k => (storeGet s k).map (fun v => (k, v))) := by
    rw [getByTagSpecified, sliceIdx_le _ 0 _ _ hoff]
    rw [show (max 1 page - 1) * limit - 0 = (max 1 page - 1) * limit from by omega,
      show (max 1 page - 1) * limit + limit - (max 1 page - 1) * limit = limit from by omega]
  refine ⟨?_, ?_, ?_⟩
  · rw [getByTag_fst, hslice, hspec]
  · intro h
    rw [getByTag_fst, h, jsSlice_nil]
    rfl
  · intro h
    rw [getByTag_fst, hslice,
      List.drop_eq_nil_of_le (by omega : (KeyvTagManager.getKeysForTag s tag).length
        ≤ ((max 1 page - 1) * limit).toNat)]
    simp

/-- Witness for claim C3 (amended) at a concrete input. -/
theorem claim_C3_amended_witness :
    (TaggedKeyv.getByTag
        ([("__tag__:t", Val.tags ["k1", "k2"]), ("k1", Val.user 0), ("k2", Val.user 1)]
          : Store Nat) "t" 2 1).1
      = getByTagSpecified
          ([("__tag__:t", Val.tags ["k1", "k2"]), ("k1", Val.user 0), ("k2", Val.user 1)]
            : Store Nat) "t" 2 1 :=
  (claim_C3_amended _ "t" 2 1 (by decide)).1

/-- Claim C3 counterexample: with `limit = -1` the interval
`[offset, offset + limit)` is empty, but the code (JavaScript slice semantics:
a negative stop counts from the end) returns a non-empty page. -/
theorem claim_C3_cex :
    (TaggedKeyv.getByTag
        ([("__tag__:t", Val.tags ["k1", "k2"]), ("k1", Val.user 0), ("k2", Val.user 1)]
          : Store Nat) "t" 1 (-1)).1
      = [("k1", Val.user 0)] ∧
    getByTagSpecified
        ([("__tag__:t", Val.tags ["k1", "k2"]), ("k1", Val.user 0), ("k2", Val.user 1)]
          : Store Nat) "t" 1 (-1)
      = [] := by
  constructor
  · decide
  · decide

/-!
## Claim C8: getAllTags
-/

theorem string_eq_of_data (a b : String) (h : a.data = b.data) : a = b := by
  cases a
  cases b
  exact congrArg String.mk (by simpa using h)

theorem getTagKey_data (t : String) :
    (KeyvTagManager.getTagKey t).data = tagMark.data ++ t.data := by
  rw [KeyvTagManager.getTagKey]
  exact String.data_append _ _

theorem storeGet_some_key_mem (s : Store V) (k : String) (v : Val V)
    (h : storeGet s k = some v) : k ∈ s.map (fun p => p.1) := by
  rw [storeGet] at h
  cases hf : s.find? (fun p => p.1 == k) with
  | none => rw [hf] at h; simp at h
  | some p =>
      have hp : p.1 = k := by simpa using List.find?_some hf
      have hmem := List.mem_of_find?_eq_some hf
      rw [← hp]
      exact List.mem_map_of_mem _ hmem

/-- Claim C8 (spec-modelled): on the default TagIndex implementation as exposed
through `TaggedKeyv.getAllTags`, the returned list is duplicate-free and
contains exactly the tag names that currently have a non-empty TagKeysRecord. -/
theorem claim_C8 (s : Store V) (t : String) :
    (TaggedKeyv.getAllTags s).Nodup ∧
    (t ∈ TaggedKeyv.getAllTags s ↔
      ∃ l, storeGet s (KeyvTagManager.getTagKey t) = some (Val.tags l) ∧ l ≠ []) := by
  constructor
  · exact List.nodup_dedup _
  · rw [TaggedKeyv.getAllTags, KeyvTagManager.getAllTags, List.mem_dedup, List.mem_filterMap]
    constructor
    · rintro ⟨k, hk, hfk⟩
      have hk2 := List.mem_filter.mp hk
      have hpre : tagMark.data <+: k.data := by
        simpa [List.isPrefixOf_iff_prefix] using hk2.2
      obtain ⟨r, hr⟩ := hpre
      cases hv : isStringArray (storeGet s k) with
      | none => rw [hv] at hfk; simp at hfk
      | some l =>
          rw [hv] at hfk
          dsimp only at hfk
          by_cases hl : l.isEmpty
          · rw [if_pos hl] at hfk
            simp at hfk
          · rw [if_neg hl] at hfk
            have ht : String.mk (k.data.drop tagMark.data.length) = t := by
              simpa using hfk
            have hdrop : k.data.drop tagMark.data.length = r := by
              rw [← hr]
              exact List.drop_left _ _
            have hkt : KeyvTagManager.getTagKey t = k := by
              apply string_eq_of_data
              rw [getTagKey_data, ← ht, hdrop]
              exact hr
            refine ⟨l, ?_, ?_⟩
            · rw [hkt]
              exact (isStringArray_eq_some _ _).mp hv
            · simpa [List.isEmpty_iff] using hl
    · rintro ⟨l, hget, hl⟩
      refine ⟨KeyvTagManager.getTagKey t, ?_, ?_⟩
      · rw [List.mem_filter]
        refine ⟨storeGet_some_key_mem s _ _ hget, ?_⟩
        rw [getTagKey_data]
        simp [List.isPrefixOf_iff_prefix]
      · rw [(isStringArray_eq_some _ _).mpr hget]
        dsimp only
        rw [if_neg (by simpa [List.isEmpty_iff] using hl)]
        have hdrop : (KeyvTagManager.getTagKey t).data.drop tagMark.data.length = t.data := by
          rw [getTagKey_data]
          exact List.drop_left _ _
        rw [hdrop]

end TaggedKeyvSpec
